import Mathlib

/-!
Formal model of the vps particle-mesh core: a 1-D periodic uniform grid
(`Grid`), a grid-resident scalar field (`Field`), a structure-of-arrays
particle container (`Particles`), and the transport kernels
(`advance_positions`, `compute_density`).

The C++ source stores `double` values; the model uses exact rational
arithmetic (`ℚ`), which realises the "exact under exact arithmetic"
reading of the specification.  The C library function `fmod` and the
C++ cast from a floating-point value to an integer both truncate toward
zero; they are modelled by `ratTrunc`/`cfmod` below.  The C++ `%` on
signed integers also truncates toward zero and is modelled by
`Int.tmod`.
-/

/-- Truncation of a rational toward zero, as performed by a C++
`static_cast` from a floating value to an integer type. -/
def ratTrunc (q : ℚ) : ℤ := if 0 ≤ q then ⌊q⌋ else ⌈q⌉

/-- Model of the C library function `fmod a b`: the remainder of the
truncated division `a / b`, carrying the sign of `a`. -/
def cfmod (a b : ℚ) : ℚ := a - b * (ratTrunc (a / b) : ℚ)

/-- Model of `vps::grid::BoundaryCondition`; the C++ enum currently has
the single enumerator `Periodic`. -/
inductive BoundaryCondition
  | Periodic
deriving DecidableEq

/-- Model of `vps::grid::Grid`.  The derived quantities `length`, `dx`
and `inv_dx` that the C++ constructor caches are recomputed by the
definitions below; over exact arithmetic they agree with the cached
values. -/
structure Grid where
  n_cells : ℕ
  x_min : ℚ
  x_max : ℚ
  bc : BoundaryCondition
deriving DecidableEq

def Grid.length (g : Grid) : ℚ := g.x_max - g.x_min

def Grid.dx (g : Grid) : ℚ := g.length / (g.n_cells : ℚ)

def Grid.inv_dx (g : Grid) : ℚ := 1 / g.dx

def Grid.cell_center (g : Grid) (i : ℕ) : ℚ := g.x_min + ((i : ℚ) + 1/2) * g.dx

def Grid.cell_left (g : Grid) (i : ℕ) : ℚ := g.x_min + (i : ℚ) * g.dx

def Grid.cell_right (g : Grid) (i : ℕ) : ℚ := g.x_min + ((i : ℚ) + 1) * g.dx

/-- Model of `Grid::wrap_position` (grid.cpp): `fmod` of `x - x_min` by
`length`, with a correction for negative remainders. -/
def Grid.wrap_position (g : Grid) (x : ℚ) : ℚ :=
  match g.bc with
  | BoundaryCondition.Periodic =>
    let x_rel := cfmod (x - g.x_min) g.length
    let x_cor := if x_rel < 0 then x_rel + g.length else x_rel
    g.x_min + x_cor

/-- Model of `Grid::cell_index` (grid.cpp): wrap, truncate
`(x_wrapped - x_min) * inv_dx` to an integer, then clamp from below by
`0` and from above by `n_cells - 1`. -/
def Grid.cell_index (g : Grid) (x : ℚ) : ℕ :=
  let x_wrapped := g.wrap_position x
  let idx : ℤ := ratTrunc ((x_wrapped - g.x_min) * g.inv_dx)
  let idx_lo : ℤ := if idx < 0 then 0 else idx
  let idx_hi : ℤ := if (g.n_cells : ℤ) ≤ idx_lo then (g.n_cells : ℤ) - 1 else idx_lo
  idx_hi.toNat

/-- Model of `Grid::interpolation_weights` (grid.cpp). -/
def Grid.interpolation_weights (g : Grid) (x : ℚ) : ℚ × ℚ :=
  let x_wrapped := g.wrap_position x
  let idx := g.cell_index x_wrapped
  let x_left := g.cell_left idx
  let right_weight := (x_wrapped - x_left) * g.inv_dx
  (1 - right_weight, right_weight)

/-- Model of `Grid::wrap_index` (grid.cpp): C++ `%` (which is `Int.tmod`)
followed by a sign correction. -/
def Grid.wrap_index (g : Grid) (i : ℤ) : ℕ :=
  match g.bc with
  | BoundaryCondition.Periodic =>
    let r := Int.tmod i (g.n_cells : ℤ)
    let r_cor := if r < 0 then r + (g.n_cells : ℤ) else r
    r_cor.toNat

/-- The construction invariant of `Grid` (spec section 3): at least one
cell and a non-degenerate domain.  The object is a value and is never
mutated, so the invariant holds for its whole lifetime. -/
def Grid.Valid (g : Grid) : Prop := 1 ≤ g.n_cells ∧ g.x_min < g.x_max

instance (g : Grid) : Decidable g.Valid := by
  unfold Grid.Valid
  infer_instance

/-- Model of the error raised by the `Grid` constructor
(`std::invalid_argument` with a message). -/
inductive GridError
  | invalid_argument (msg : String)
deriving DecidableEq

/-- Model of the `Grid` constructor (grid.cpp): it throws
`std::invalid_argument` when `n_cells == 0` (checked first) or
`x_min >= x_max`, and otherwise produces the grid. -/
def Grid.make (n_cells : ℕ) (x_min x_max : ℚ) (bc : BoundaryCondition) :
    Except GridError Grid :=
  if n_cells = 0 then
    Except.error (GridError.invalid_argument "Grid must have at least one cell")
  else if x_min ≥ x_max then
    Except.error (GridError.invalid_argument "x_min must be less than x_max")
  else
    Except.ok (Grid.mk n_cells x_min x_max bc)

/-- Model of `vps::grid::Field` (named `VField` here because Lean's
library already uses the name `Field`): the referenced grid and the
dense value array `data_`. -/
structure VField where
  grid : Grid
  data : List ℚ
deriving DecidableEq

/-- Model of the `Field` constructor: `n_cells` copies of the initial
value. -/
def VField.make (grid : Grid) (initial_value : ℚ) : VField :=
  VField.mk grid (List.replicate grid.n_cells initial_value)

def VField.size (fld : VField) : ℕ := fld.data.length

/-- Model of `Field::fill`: overwrite every stored value, keeping the
length. -/
def VField.fill (fld : VField) (val : ℚ) : VField :=
  VField.mk fld.grid (List.replicate fld.data.length val)

def VField.zero (fld : VField) : VField := fld.fill 0

/-- Model of `Field::interpolate` (grid.cpp): linear blend between the
containing cell and its periodic right neighbour. -/
def VField.interpolate (fld : VField) (x : ℚ) : ℚ :=
  let idx := fld.grid.cell_index x
  let w := fld.grid.interpolation_weights x
  let idx_next := fld.grid.wrap_index ((idx : ℤ) + 1)
  w.1 * fld.data.getD idx 0 + w.2 * fld.data.getD idx_next 0

/-- Model of `vps::particles::Particles`: the three parallel sequences
and the capacity of the backing vectors.  `cap` models the standard
`std::vector` capacity guarantee (`capacity() >= size()`, and
`reserve(n)` makes `capacity() >= n`) by its minimal deterministic
realisation. -/
structure Particles where
  x : List ℚ
  v : List ℚ
  f : List ℚ
  cap : ℕ
deriving DecidableEq

def Particles.size (p : Particles) : ℕ := p.x.length

def Particles.empty (p : Particles) : Bool := p.x.isEmpty

def Particles.capacity (p : Particles) : ℕ := p.cap

/-- Model of the default constructor `Particles()`. -/
def Particles.mkEmpty : Particles := Particles.mk [] [] [] 0

/-- Model of `Particles::reserve`: no observable change except that the
capacity becomes at least `n`. -/
def Particles.reserve (p : Particles) (n : ℕ) : Particles :=
  Particles.mk p.x p.v p.f (max p.cap n)

/-- Model of the single-argument constructor `Particles(capacity)`
(particles.cpp): default-construct, then `reserve(capacity)`. -/
def Particles.mkCapacity (capacity : ℕ) : Particles :=
  Particles.mkEmpty.reserve capacity

/-- Model of the four-argument constructor
`Particles(size, x_val, v_val, f_val)` (particles.cpp). -/
def Particles.mkSized (size : ℕ) (x_val v_val f_val : ℚ) : Particles :=
  Particles.mk (List.replicate size x_val) (List.replicate size v_val)
    (List.replicate size f_val) size

/-- Behaviour of `std::vector::resize(n, d)`: truncate when shrinking,
append copies of `d` when growing. -/
def resizeList (l : List ℚ) (n : ℕ) (d : ℚ) : List ℚ :=
  if n ≤ l.length then l.take n else l ++ List.replicate (n - l.length) d

/-- Model of `Particles::resize(n)`: new slots are value-initialised to
zero. -/
def Particles.resize (p : Particles) (n : ℕ) : Particles :=
  Particles.mk (resizeList p.x n 0) (resizeList p.v n 0) (resizeList p.f n 0)
    (max p.cap n)

/-- Model of `Particles::resize(n, x_val, v_val, f_val)`. -/
def Particles.resizeWith (p : Particles) (n : ℕ) (x_val v_val f_val : ℚ) : Particles :=
  Particles.mk (resizeList p.x n x_val) (resizeList p.v n v_val)
    (resizeList p.f n f_val) (max p.cap n)

/-- Model of `Particles::clear`: logical-size reset, capacity kept. -/
def Particles.clear (p : Particles) : Particles :=
  Particles.mk [] [] [] p.cap

/-- Model of `Particles::push_back` in the run where no allocation
fails: append to each of the three vectors in turn. -/
def Particles.push_back (p : Particles) (x_val v_val f_val : ℚ) : Particles :=
  Particles.mk (p.x ++ [x_val]) (p.v ++ [v_val]) (p.f ++ [f_val])
    (max p.cap (p.x.length + 1))

/-- Model of `Particles::pop_back`. -/
def Particles.pop_back (p : Particles) : Particles :=
  Particles.mk p.x.dropLast p.v.dropLast p.f.dropLast p.cap

/-- Length-synchronisation invariant of the particle container (spec
section 3): the three sequences have one common length. -/
def Particles.Wf (p : Particles) : Prop :=
  p.v.length = p.x.length ∧ p.f.length = p.x.length

instance (p : Particles) : Decidable p.Wf := by
  unfold Particles.Wf
  infer_instance

/-- One `std::vector::push_back` under an allocation oracle `ok`.  The
standard library gives the strong guarantee for a single vector: on
failure the vector itself is unchanged and the exception propagates. -/
def pushOrFail (l : List ℚ) (a : ℚ) (ok : Bool) : Option (List ℚ) :=
  if ok then some (l ++ [a]) else none

/-- Model of `Particles::push_back` (particles.cpp) under an allocation
oracle for each of the three sequential vector appends.  When an append
fails, the exception escapes `push_back` and the appends already
completed stay in place; the `Except.error` value records the
observable state left behind.  Capacity growth of the individual
vectors on the failing paths is implementation-defined and is not
modelled. -/
def Particles.pushBackAlloc (p : Particles) (x_val v_val f_val : ℚ)
    (okx okv okf : Bool) : Except Particles Particles :=
  match pushOrFail p.x x_val okx with
  | none => Except.error p
  | some xs =>
    match pushOrFail p.v v_val okv with
    | none => Except.error (Particles.mk xs p.v p.f p.cap)
    | some vs =>
      match pushOrFail p.f f_val okf with
      | none => Except.error (Particles.mk xs vs p.f p.cap)
      | some fs => Except.ok (Particles.mk xs vs fs (max p.cap (p.x.length + 1)))

/-- The loop body of `advance_positions` (particles.cpp) applied to an
explicit processing order: slot `i` is overwritten with
`x[i] + v[i] * dt`, reading `v` from the unchanged velocity sequence. -/
def advanceFold (vs : List ℚ) (dt : ℚ) (xs : List ℚ) (order : List ℕ) : List ℚ :=
  order.foldl (fun ys i => ys.set i (ys.getD i 0 + vs.getD i 0 * dt)) xs

/-- Model of the free function `advance_positions` (particles.cpp): the
sequential reference loop over `i = 0, ..., size - 1`. -/
def advance_positions (p : Particles) (dt : ℚ) : Particles :=
  Particles.mk (advanceFold p.v dt p.x (List.range p.size)) p.v p.f p.cap

/-- One iteration of the deposition loop of `compute_density`
(main.cpp): `density[i] += f * inv_dx` at `i = grid.cell_index(x)`. -/
def depositStep (g : Grid) (d : VField) (xf : ℚ × ℚ) : VField :=
  VField.mk d.grid
    (d.data.set (g.cell_index xf.1)
      (d.data.getD (g.cell_index xf.1) 0 + xf.2 * g.inv_dx))

/-- Model of `compute_density` (main.cpp): zero the field, then deposit
`f[p] * (1 / dx)` into the cell containing `x[p]`, for every sample. -/
def compute_density (particles : Particles) (g : Grid) (density : VField) : VField :=
  (particles.x.zip particles.f).foldl (depositStep g) density.zero

/-- The concrete grid of the specification scenario:
`Grid(n=4, x_min=0, x_max=4)`. -/
def grid4 : Grid := Grid.mk 4 0 4 BoundaryCondition.Periodic

/-- A concrete grid used to instantiate the deposition-conservation
theorem: `Grid(n=10, x_min=0, x_max=10)`. -/
def grid10 : Grid := Grid.mk 10 0 10 BoundaryCondition.Periodic

/-! ## Arithmetic helper lemmas -/

theorem ratTrunc_of_nonneg {q : ℚ} (h : 0 ≤ q) : ratTrunc q = ⌊q⌋ :=
  if_pos h

theorem cfmod_mul_form {b : ℚ} (hb : b ≠ 0) (a : ℚ) :
    cfmod a b = b * (a / b - (ratTrunc (a / b) : ℚ)) := by
  unfold cfmod
  rw [mul_sub, mul_div_cancel₀ a hb]

theorem cfmod_lt {b : ℚ} (hb : 0 < b) (a : ℚ) : cfmod a b < b := by
  rw [cfmod_mul_form (ne_of_gt hb) a]
  rcases le_or_lt 0 (a / b) with h | h
  · rw [ratTrunc_of_nonneg h]
    have h1 : a / b - (⌊a / b⌋ : ℚ) < 1 := by
      have h2 := Int.sub_one_lt_floor (a / b)
      linarith
    calc b * (a / b - (⌊a / b⌋ : ℚ)) < b * 1 := mul_lt_mul_of_pos_left h1 hb
      _ = b := mul_one b
  · rw [show ratTrunc (a / b) = ⌈a / b⌉ from if_neg (not_le.mpr h)]
    have h1 : a / b - (⌈a / b⌉ : ℚ) ≤ 0 := sub_nonpos.mpr (Int.le_ceil (a / b))
    have h2 : b * (a / b - (⌈a / b⌉ : ℚ)) ≤ 0 :=
      mul_nonpos_of_nonneg_of_nonpos hb.le h1
    linarith

theorem neg_lt_cfmod {b : ℚ} (hb : 0 < b) (a : ℚ) : -b < cfmod a b := by
  rw [cfmod_mul_form (ne_of_gt hb) a]
  rcases le_or_lt 0 (a / b) with h | h
  · rw [ratTrunc_of_nonneg h]
    have h1 : 0 ≤ a / b - (⌊a / b⌋ : ℚ) := sub_nonneg.mpr (Int.floor_le (a / b))
    have h2 : 0 ≤ b * (a / b - (⌊a / b⌋ : ℚ)) := mul_nonneg hb.le h1
    linarith
  · rw [show ratTrunc (a / b) = ⌈a / b⌉ from if_neg (not_le.mpr h)]
    have h1 : -1 < a / b - (⌈a / b⌉ : ℚ) := by
      have h2 := Int.ceil_lt_add_one (a / b)
      linarith
    have h3 : b * (-1) < b * (a / b - (⌈a / b⌉ : ℚ)) := mul_lt_mul_of_pos_left h1 hb
    linarith

theorem cfmod_of_mem {b : ℚ} (hb : 0 < b) {a : ℚ} (h0 : 0 ≤ a) (h1 : a < b) :
    cfmod a b = a := by
  have hq0 : 0 ≤ a / b := div_nonneg h0 hb.le
  have hq1 : a / b < 1 := (div_lt_one hb).mpr h1
  unfold cfmod
  rw [ratTrunc_of_nonneg hq0, Int.floor_eq_zero_iff.mpr (Set.mem_Ico.mpr ⟨hq0, hq1⟩)]
  simp

theorem neg_lt_tmod_of_pos {n : ℤ} (hn : 0 < n) (i : ℤ) : -n < Int.tmod i n := by
  rcases le_or_lt 0 i with h | h
  · have h2 := Int.tmod_nonneg n h
    linarith
  · obtain ⟨m, rfl⟩ : ∃ m : ℕ, i = Int.negSucc m := by
      refine ⟨(-i - 1).toNat, ?_⟩
      rw [Int.negSucc_eq]
      omega
    obtain ⟨k, rfl⟩ : ∃ k : ℕ, n = (k : ℤ) := ⟨n.toNat, by omega⟩
    have hk : 0 < k := by exact_mod_cast hn
    have he : Int.tmod (Int.negSucc m) (k : ℤ) = -(((m + 1) % k : ℕ) : ℤ) := rfl
    rw [he]
    have hlt : (m + 1) % k < k := Nat.mod_lt _ hk
    omega

/-! ## Grid lemmas -/

theorem Grid.wrap_position_def (g : Grid) (x : ℚ) :
    g.wrap_position x =
      g.x_min + (if cfmod (x - g.x_min) g.length < 0
        then cfmod (x - g.x_min) g.length + g.length
        else cfmod (x - g.x_min) g.length) := rfl

theorem Grid.wrap_index_def (g : Grid) (i : ℤ) :
    g.wrap_index i =
      (if Int.tmod i (g.n_cells : ℤ) < 0
        then Int.tmod i (g.n_cells : ℤ) + (g.n_cells : ℤ)
        else Int.tmod i (g.n_cells : ℤ)).toNat := rfl

theorem Grid.cell_index_def (g : Grid) (x : ℚ) :
    g.cell_index x =
      (if (g.n_cells : ℤ) ≤
          (if ratTrunc ((g.wrap_position x - g.x_min) * g.inv_dx) < 0 then 0
            else ratTrunc ((g.wrap_position x - g.x_min) * g.inv_dx))
        then (g.n_cells : ℤ) - 1
        else if ratTrunc ((g.wrap_position x - g.x_min) * g.inv_dx) < 0 then 0
          else ratTrunc ((g.wrap_position x - g.x_min) * g.inv_dx)).toNat := rfl

theorem Grid.n_cells_cast_pos {g : Grid} (hg : g.Valid) : (0 : ℚ) < (g.n_cells : ℚ) := by
  have h : 0 < g.n_cells := hg.1
  exact_mod_cast h

theorem Grid.length_pos {g : Grid} (hg : g.Valid) : 0 < g.length :=
  sub_pos.mpr hg.2

theorem Grid.dx_pos {g : Grid} (hg : g.Valid) : 0 < g.dx :=
  div_pos (Grid.length_pos hg) (Grid.n_cells_cast_pos hg)

theorem Grid.x_max_eq (g : Grid) : g.x_max = g.x_min + g.length := by
  unfold Grid.length
  ring

theorem Grid.wrap_position_mem {g : Grid} (hg : g.Valid) (x : ℚ) :
    g.x_min ≤ g.wrap_position x ∧ g.wrap_position x < g.x_max := by
  rw [Grid.wrap_position_def, Grid.x_max_eq g]
  have hL := Grid.length_pos hg
  have h1 := cfmod_lt hL (x - g.x_min)
  have h2 := neg_lt_cfmod hL (x - g.x_min)
  constructor
  · split_ifs with h
    · linarith
    · linarith
  · split_ifs with h
    · linarith
    · linarith

theorem Grid.wrap_position_of_mem {g : Grid} (hg : g.Valid) {x : ℚ}
    (h0 : g.x_min ≤ x) (h1 : x < g.x_max) : g.wrap_position x = x := by
  rw [Grid.wrap_position_def]
  have hL := Grid.length_pos hg
  have hx0 : 0 ≤ x - g.x_min := sub_nonneg.mpr h0
  have hx1 : x - g.x_min < g.length := by
    have h2 := Grid.x_max_eq g
    linarith
  rw [cfmod_of_mem hL hx0 hx1, if_neg (not_lt.mpr hx0)]
  ring

theorem Grid.wrap_position_idem {g : Grid} (hg : g.Valid) (x : ℚ) :
    g.wrap_position (g.wrap_position x) = g.wrap_position x :=
  Grid.wrap_position_of_mem hg (Grid.wrap_position_mem hg x).1
    (Grid.wrap_position_mem hg x).2

theorem Grid.cell_index_eq_clamp {g : Grid} (hg : g.Valid) (x : ℚ) :
    (g.cell_index x : ℤ) =
      max 0 (min ((g.n_cells : ℤ) - 1) ⌊(g.wrap_position x - g.x_min) / g.dx⌋) := by
  have hw := Grid.wrap_position_mem hg x
  have hdx := Grid.dx_pos hg
  have harg0 : 0 ≤ (g.wrap_position x - g.x_min) / g.dx :=
    div_nonneg (sub_nonneg.mpr hw.1) hdx.le
  have hmul : (g.wrap_position x - g.x_min) * g.inv_dx
      = (g.wrap_position x - g.x_min) / g.dx := by
    unfold Grid.inv_dx
    rw [mul_one_div]
  rw [Grid.cell_index_def, hmul, ratTrunc_of_nonneg harg0]
  have hfl : 0 ≤ ⌊(g.wrap_position x - g.x_min) / g.dx⌋ := Int.floor_nonneg.mpr harg0
  have hn : 1 ≤ g.n_cells := hg.1
  split_ifs <;> omega

theorem Grid.cell_index_lt {g : Grid} (hg : g.Valid) (x : ℚ) :
    g.cell_index x < g.n_cells := by
  have h := Grid.cell_index_eq_clamp hg x
  have hn : 1 ≤ g.n_cells := hg.1
  omega

theorem Grid.cell_index_wrap_position {g : Grid} (hg : g.Valid) (x : ℚ) :
    g.cell_index (g.wrap_position x) = g.cell_index x := by
  rw [Grid.cell_index_def, Grid.cell_index_def, Grid.wrap_position_idem hg]

theorem Grid.n_mul_dx {g : Grid} (hg : g.Valid) : (g.n_cells : ℚ) * g.dx = g.length := by
  have hn0 : (g.n_cells : ℚ) ≠ 0 := ne_of_gt (Grid.n_cells_cast_pos hg)
  unfold Grid.dx
  field_simp

theorem Grid.cell_left_mem {g : Grid} (hg : g.Valid) {i : ℕ} (hi : i < g.n_cells) :
    g.x_min ≤ g.cell_left i ∧ g.cell_left i < g.x_max := by
  unfold Grid.cell_left
  have hdx := Grid.dx_pos hg
  have h1 : 0 ≤ (i : ℚ) * g.dx := mul_nonneg (Nat.cast_nonneg i) hdx.le
  have h2 : (i : ℚ) * g.dx < (g.n_cells : ℚ) * g.dx := by
    apply mul_lt_mul_of_pos_right _ hdx
    exact_mod_cast hi
  rw [Grid.n_mul_dx hg] at h2
  have h3 := Grid.x_max_eq g
  constructor
  · linarith
  · linarith

theorem Grid.cell_index_cell_left {g : Grid} (hg : g.Valid) {i : ℕ}
    (hi : i < g.n_cells) : g.cell_index (g.cell_left i) = i := by
  have hmem := Grid.cell_left_mem hg hi
  have hw : g.wrap_position (g.cell_left i) = g.cell_left i :=
    Grid.wrap_position_of_mem hg hmem.1 hmem.2
  have hdx0 : g.dx ≠ 0 := ne_of_gt (Grid.dx_pos hg)
  have hq : (g.cell_left i - g.x_min) / g.dx = (i : ℚ) := by
    unfold Grid.cell_left
    field_simp
  have h := Grid.cell_index_eq_clamp hg (g.cell_left i)
  rw [hw, hq, Int.floor_natCast] at h
  have hi2 : (i : ℤ) < (g.n_cells : ℤ) := by exact_mod_cast hi
  omega

theorem Grid.interpolation_weights_def (g : Grid) (x : ℚ) :
    g.interpolation_weights x =
      (1 - (g.wrap_position x - g.cell_left (g.cell_index (g.wrap_position x))) * g.inv_dx,
        (g.wrap_position x - g.cell_left (g.cell_index (g.wrap_position x))) * g.inv_dx) := rfl

theorem Grid.interpolation_weights_sum (g : Grid) (x : ℚ) :
    (g.interpolation_weights x).1 + (g.interpolation_weights x).2 = 1 := by
  rw [Grid.interpolation_weights_def]
  ring

theorem Grid.interpolation_weights_cell_left {g : Grid} (hg : g.Valid) {i : ℕ}
    (hi : i < g.n_cells) : g.interpolation_weights (g.cell_left i) = (1, 0) := by
  have hmem := Grid.cell_left_mem hg hi
  have hw := Grid.wrap_position_of_mem hg hmem.1 hmem.2
  rw [Grid.interpolation_weights_def, hw, Grid.cell_index_cell_left hg hi]
  simp

theorem Grid.wrap_index_eq_emod {g : Grid} (hg : g.Valid) (i : ℤ) :
    (g.wrap_index i : ℤ) = i % (g.n_cells : ℤ) := by
  have hn : 0 < (g.n_cells : ℤ) := by exact_mod_cast hg.1
  rw [Grid.wrap_index_def]
  have htm : Int.tmod i (g.n_cells : ℤ) % (g.n_cells : ℤ) = i % (g.n_cells : ℤ) := by
    rw [Int.tmod_def]
    have h3 : i - (g.n_cells : ℤ) * Int.tdiv i (g.n_cells : ℤ)
        = i + (-(Int.tdiv i (g.n_cells : ℤ))) * (g.n_cells : ℤ) := by ring
    rw [h3, Int.add_mul_emod_self]
  have hup : Int.tmod i (g.n_cells : ℤ) < (g.n_cells : ℤ) := Int.tmod_lt_of_pos i hn
  have hlow : -(g.n_cells : ℤ) < Int.tmod i (g.n_cells : ℤ) := neg_lt_tmod_of_pos hn i
  split_ifs with h
  · have h4 : (Int.tmod i (g.n_cells : ℤ) + (g.n_cells : ℤ)) % (g.n_cells : ℤ)
        = i % (g.n_cells : ℤ) := by
      have h5 : Int.tmod i (g.n_cells : ℤ) + (g.n_cells : ℤ)
          = Int.tmod i (g.n_cells : ℤ) + 1 * (g.n_cells : ℤ) := by ring
      rw [h5, Int.add_mul_emod_self, htm]
    have h6 : Int.tmod i (g.n_cells : ℤ) + (g.n_cells : ℤ) = i % (g.n_cells : ℤ) := by
      rw [← h4]
      exact (Int.emod_eq_of_lt (by omega) (by omega)).symm
    omega
  · have h6 : Int.tmod i (g.n_cells : ℤ) = i % (g.n_cells : ℤ) := by
      rw [← htm]
      exact (Int.emod_eq_of_lt (by omega) (by omega)).symm
    omega

theorem Grid.wrap_index_lt {g : Grid} (hg : g.Valid) (i : ℤ) :
    g.wrap_index i < g.n_cells := by
  have h := Grid.wrap_index_eq_emod hg i
  have hn : 0 < (g.n_cells : ℤ) := by exact_mod_cast hg.1
  have h2 := Int.emod_lt_of_pos i hn
  omega

/-! ## Field lemmas -/

theorem getD_replicate_of_lt {n i : ℕ} {c : ℚ} (h : i < n) :
    (List.replicate n c).getD i 0 = c := by
  rw [List.getD_eq_getElem _ _ (by simpa using h)]
  exact List.getElem_replicate c _

theorem VField.interpolate_make_const {g : Grid} (hg : g.Valid) (c : ℚ) (x : ℚ) :
    (VField.make g c).interpolate x = c := by
  show (g.interpolation_weights x).1
        * (List.replicate g.n_cells c).getD (g.cell_index x) 0
      + (g.interpolation_weights x).2
        * (List.replicate g.n_cells c).getD
            (g.wrap_index ((g.cell_index x : ℤ) + 1)) 0 = c
  rw [getD_replicate_of_lt (Grid.cell_index_lt hg x),
    getD_replicate_of_lt (Grid.wrap_index_lt hg _)]
  have hsum := Grid.interpolation_weights_sum g x
  linear_combination c * hsum

theorem VField.interpolate_cell_left {g : Grid} (hg : g.Valid) (fld : VField)
    (hgrid : fld.grid = g) {i : ℕ} (hi : i < g.n_cells) :
    fld.interpolate (g.cell_left i) = fld.data.getD i 0 := by
  show (fld.grid.interpolation_weights (g.cell_left i)).1
        * fld.data.getD (fld.grid.cell_index (g.cell_left i)) 0
      + (fld.grid.interpolation_weights (g.cell_left i)).2
        * fld.data.getD
            (fld.grid.wrap_index ((fld.grid.cell_index (g.cell_left i) : ℤ) + 1)) 0
      = fld.data.getD i 0
  rw [hgrid, Grid.cell_index_cell_left hg hi, Grid.interpolation_weights_cell_left hg hi]
  norm_num

/-! ## Concrete scenario grid -/

theorem grid4_valid : grid4.Valid := by decide

theorem grid4_dx : grid4.dx = 1 := by
  show ((4 : ℚ) - 0) / ((4 : ℕ) : ℚ) = 1
  norm_num

theorem grid4_cell_index_399 : grid4.cell_index (399/100) = 3 := by
  have hw : grid4.wrap_position (399/100) = 399/100 := by
    apply Grid.wrap_position_of_mem grid4_valid
    · show (0 : ℚ) ≤ 399/100
      norm_num
    · show (399 : ℚ)/100 < 4
      norm_num
  have h := Grid.cell_index_eq_clamp grid4_valid (399/100)
  rw [hw, grid4_dx, show grid4.x_min = 0 from rfl] at h
  have hfl : ⌊((399 : ℚ)/100 - 0) / 1⌋ = 3 := by norm_num
  rw [hfl, show grid4.n_cells = 4 from rfl] at h
  omega

theorem grid4_cell_index_45 : grid4.cell_index (9/2) = 0 := by
  have hw : grid4.wrap_position (9/2) = 1/2 := by
    rw [Grid.wrap_position_def]
    rw [show grid4.length = 4 from by norm_num [grid4, Grid.length],
      show grid4.x_min = 0 from rfl]
    have hc : cfmod ((9 : ℚ)/2 - 0) 4 = 1/2 := by
      have hq0 : (0 : ℚ) ≤ ((9 : ℚ)/2 - 0) / 4 := by norm_num
      unfold cfmod
      rw [ratTrunc_of_nonneg hq0, show ((9 : ℚ)/2 - 0) / 4 = 9/8 from by norm_num]
      norm_num
    rw [hc, if_neg (by norm_num : ¬((1 : ℚ)/2 < 0))]
    norm_num
  have h := Grid.cell_index_eq_clamp grid4_valid (9/2)
  rw [hw, grid4_dx, show grid4.x_min = 0 from rfl] at h
  have hfl : ⌊((1 : ℚ)/2 - 0) / 1⌋ = 0 := by norm_num
  rw [hfl, show grid4.n_cells = 4 from rfl] at h
  omega

/-! ## Particle container lemmas -/

theorem resizeList_length (l : List ℚ) (n : ℕ) (d : ℚ) :
    (resizeList l n d).length = n := by
  unfold resizeList
  split_ifs with h
  · simp [List.length_take]
    omega
  · simp [List.length_append, List.length_replicate]
    omega

/-! ## Deposition lemmas -/

theorem sum_set_getD_add (l : List ℚ) (i : ℕ) (hi : i < l.length) (a : ℚ) :
    (l.set i (l.getD i 0 + a)).sum = l.sum + a := by
  induction l generalizing i with
  | nil => simp at hi
  | cons hd tl ih =>
    cases i with
    | zero =>
      simp [List.sum_cons]
      ring
    | succ n =>
      have hn : n < tl.length := by simpa using hi
      rw [show (hd :: tl).getD (n + 1) 0 = tl.getD n 0 from rfl,
        show (hd :: tl).set (n + 1) (tl.getD n 0 + a) = hd :: tl.set n (tl.getD n 0 + a)
          from rfl,
        List.sum_cons, List.sum_cons, ih n hn]
      ring

theorem depositStep_length (g : Grid) (d : VField) (xf : ℚ × ℚ) :
    (depositStep g d xf).data.length = d.data.length := by
  unfold depositStep
  exact List.length_set d.data _ _

theorem foldl_deposit_sum {g : Grid} (hg : g.Valid) :
    ∀ (pairs : List (ℚ × ℚ)) (d : VField), d.data.length = g.n_cells →
      (pairs.foldl (depositStep g) d).data.sum
        = d.data.sum + (pairs.map Prod.snd).sum * g.inv_dx := by
  intro pairs
  induction pairs with
  | nil =>
    intro d hd
    simp
  | cons xf rest ih =>
    intro d hd
    have hidx : g.cell_index xf.1 < d.data.length := by
      rw [hd]
      exact Grid.cell_index_lt hg _
    have hstep_len : (depositStep g d xf).data.length = g.n_cells := by
      rw [depositStep_length, hd]
    have hstep_sum : (depositStep g d xf).data.sum = d.data.sum + xf.2 * g.inv_dx := by
      unfold depositStep
      exact sum_set_getD_add _ _ hidx _
    calc ((xf :: rest).foldl (depositStep g) d).data.sum
        = (rest.foldl (depositStep g) (depositStep g d xf)).data.sum := by
          rw [List.foldl_cons]
      _ = (depositStep g d xf).data.sum + (rest.map Prod.snd).sum * g.inv_dx :=
          ih _ hstep_len
      _ = d.data.sum + ((xf :: rest).map Prod.snd).sum * g.inv_dx := by
          rw [hstep_sum]
          simp [List.map_cons, List.sum_cons]
          ring

/-! ## Position-advance lemmas -/

theorem advanceFold_length (vs : List ℚ) (dt : ℚ) :
    ∀ (order : List ℕ) (xs : List ℚ), (advanceFold vs dt xs order).length = xs.length := by
  intro order
  induction order with
  | nil =>
    intro xs
    rfl
  | cons i rest ih =>
    intro xs
    show (advanceFold vs dt (xs.set i (xs.getD i 0 + vs.getD i 0 * dt)) rest).length
      = xs.length
    rw [ih]
    exact List.length_set xs i _

theorem advanceFold_getD (vs : List ℚ) (dt : ℚ) :
    ∀ (order : List ℕ) (xs : List ℚ), order.Nodup → (∀ i ∈ order, i < xs.length) →
      ∀ j, (advanceFold vs dt xs order).getD j 0 =
        if j ∈ order then xs.getD j 0 + vs.getD j 0 * dt else xs.getD j 0 := by
  intro order
  induction order with
  | nil =>
    intro xs _ _ j
    simp [advanceFold]
  | cons i rest ih =>
    intro xs hnd hbound j
    have hnd2 : rest.Nodup := (List.nodup_cons.mp hnd).2
    have hni : i ∉ rest := (List.nodup_cons.mp hnd).1
    have hilen : i < xs.length := hbound i (List.mem_cons_self i rest)
    have hbound2 : ∀ m ∈ rest, m < (xs.set i (xs.getD i 0 + vs.getD i 0 * dt)).length := by
      intro m hm
      rw [List.length_set]
      exact hbound m (List.mem_cons_of_mem i hm)
    have hstep : advanceFold vs dt xs (i :: rest)
        = advanceFold vs dt (xs.set i (xs.getD i 0 + vs.getD i 0 * dt)) rest := rfl
    rw [hstep, ih _ hnd2 hbound2 j]
    by_cases hj : j ∈ rest
    · have hji : j ≠ i := fun h => hni (h ▸ hj)
      rw [if_pos hj, if_pos (List.mem_cons_of_mem i hj)]
      simp only [List.getD_eq_getElem?_getD, List.getElem?_set_ne (Ne.symm hji)]
    · rw [if_neg hj]
      by_cases hji : j = i
      · subst hji
        rw [if_pos (List.mem_cons_self j rest)]
        rw [List.getD_eq_getElem?_getD, List.getElem?_set_self hilen]
        rfl
      · have hmem : j ∉ i :: rest := by
          intro hc
          rcases List.mem_cons.mp hc with h | h
          · exact hji h
          · exact hj h
        rw [if_neg hmem]
        simp only [List.getD_eq_getElem?_getD, List.getElem?_set_ne (Ne.symm hji)]

theorem advanceFold_range_eq_zipWith (vs xs : List ℚ) (dt : ℚ)
    (hv : vs.length = xs.length) :
    advanceFold vs dt xs (List.range xs.length)
      = List.zipWith (fun a b => a + b * dt) xs vs := by
  apply List.ext_getElem
  · rw [advanceFold_length, List.length_zipWith, hv, min_self]
  · intro n h1 h2
    have hl1 : n < xs.length := by
      rw [advanceFold_length] at h1
      exact h1
    have hl2 : n < vs.length := by
      rw [hv]
      exact hl1
    have hfold := advanceFold_getD vs dt (List.range xs.length) xs
      (List.nodup_range _) (fun m hm => List.mem_range.mp hm) n
    rw [if_pos (List.mem_range.mpr hl1)] at hfold
    calc (advanceFold vs dt xs (List.range xs.length))[n]
        = (advanceFold vs dt xs (List.range xs.length)).getD n 0 :=
          (List.getD_eq_getElem _ _ h1).symm
      _ = xs.getD n 0 + vs.getD n 0 * dt := hfold
      _ = xs[n] + vs[n] * dt := by
          rw [List.getD_eq_getElem _ _ hl1, List.getD_eq_getElem _ _ hl2]
      _ = (List.zipWith (fun a b => a + b * dt) xs vs)[n] := by
          rw [List.getElem_zipWith]

theorem advanceFold_perm (vs xs : List ℚ) (dt : ℚ) (order : List ℕ)
    (hperm : order.Perm (List.range xs.length)) :
    advanceFold vs dt xs order = advanceFold vs dt xs (List.range xs.length) := by
  have hnd : order.Nodup := hperm.symm.nodup (List.nodup_range _)
  have hbound : ∀ m ∈ order, m < xs.length := by
    intro m hm
    exact List.mem_range.mp (hperm.mem_iff.mp hm)
  apply List.ext_getElem
  · rw [advanceFold_length, advanceFold_length]
  · intro n h1 h2
    have ha := advanceFold_getD vs dt order xs hnd hbound n
    have hb := advanceFold_getD vs dt (List.range xs.length) xs
      (List.nodup_range _) (fun m hm => List.mem_range.mp hm) n
    rw [← List.getD_eq_getElem _ 0 h1, ← List.getD_eq_getElem _ 0 h2, ha, hb]
    by_cases hmm : n ∈ order
    · rw [if_pos hmm, if_pos (hperm.mem_iff.mp hmm)]
    · rw [if_neg hmm, if_neg (fun hc => hmm (hperm.mem_iff.mpr hc))]

/-! ## Claim theorems -/

/-- C1: deposition conservation.  `compute_density` zeroes the field and
then accumulates `f[i] / dx` into the cell containing `x[i]`; for every
valid grid, every field over it and every length-synchronised particle
set, the sum over all cells of `field[i] * dx` after deposition equals
the total particle weight `sum f`, for any spatial distribution of the
positions (exact over the model's exact arithmetic). -/
theorem compute_density_conserves_weight (p : Particles) (g : Grid) (fld : VField)
    (hg : g.Valid) (hlen : fld.data.length = g.n_cells)
    (hpf : p.f.length = p.x.length) :
    ((compute_density p g fld).data.map (fun c => c * g.dx)).sum = p.f.sum := by
  have hzero_len : fld.zero.data.length = g.n_cells := by
    simp [VField.zero, VField.fill, hlen]
  have hzero_sum : fld.zero.data.sum = 0 := by
    simp [VField.zero, VField.fill, List.sum_replicate]
  have hfold := foldl_deposit_sum hg (p.x.zip p.f) fld.zero hzero_len
  have hsnd : (p.x.zip p.f).map Prod.snd = p.f :=
    List.map_snd_zip p.x p.f (le_of_eq hpf)
  have hmap : ∀ l : List ℚ, (l.map (fun c => c * g.dx)).sum = l.sum * g.dx := by
    intro l
    simpa using List.sum_map_mul_right l (fun c => c) g.dx
  unfold compute_density
  rw [hmap, hfold, hzero_sum, hsnd]
  have hdx0 : g.dx ≠ 0 := ne_of_gt (Grid.dx_pos hg)
  unfold Grid.inv_dx
  field_simp

theorem compute_density_conserves_weight_witness :
    grid10.Valid
  ∧ (VField.make grid10 0).data.length = grid10.n_cells
  ∧ (Particles.mkSized 1 (5/2) 0 1).f.length = (Particles.mkSized 1 (5/2) 0 1).x.length
  ∧ ((compute_density (Particles.mkSized 1 (5/2) 0 1) grid10
        (VField.make grid10 0)).data.map (fun c => c * grid10.dx)).sum
      = (Particles.mkSized 1 (5/2) 0 1).f.sum :=
  ⟨by decide, rfl, rfl,
    compute_density_conserves_weight (Particles.mkSized 1 (5/2) 0 1) grid10
      (VField.make grid10 0) (by decide) rfl rfl⟩

/-- C2: for every valid grid and every rational `x`, `wrap_position x`
lies in `[x_min, x_max)`, `wrap_position` is idempotent, and
`cell_index (wrap_position x) = cell_index x`. -/
theorem wrap_position_range_idem (g : Grid) (hg : g.Valid) (x : ℚ) :
    (g.x_min ≤ g.wrap_position x ∧ g.wrap_position x < g.x_max)
  ∧ g.wrap_position (g.wrap_position x) = g.wrap_position x
  ∧ g.cell_index (g.wrap_position x) = g.cell_index x :=
  ⟨Grid.wrap_position_mem hg x, Grid.wrap_position_idem hg x,
    Grid.cell_index_wrap_position hg x⟩

theorem wrap_position_range_idem_witness :
    grid4.Valid
  ∧ grid4.wrap_position (grid4.wrap_position (-(1/2))) = grid4.wrap_position (-(1/2)) :=
  ⟨by decide, (wrap_position_range_idem grid4 (by decide) (-(1/2))).2.1⟩

/-- C3: `cell_index` is total and always returns an index in
`[0, n_cells - 1]`, obtained by wrapping, flooring
`(x_wrapped - x_min) / dx` and clamping to `[0, n_cells - 1]`; in the
concrete scenario `Grid(4, 0, 4)`, `cell_index 3.99 = 3` and
`cell_index 4.5 = 0`. -/
theorem cell_index_total_clamped (g : Grid) (hg : g.Valid) (x : ℚ) :
    g.cell_index x < g.n_cells
  ∧ (g.cell_index x : ℤ)
      = max 0 (min ((g.n_cells : ℤ) - 1) ⌊(g.wrap_position x - g.x_min) / g.dx⌋)
  ∧ grid4.cell_index (399/100) = 3
  ∧ grid4.cell_index (9/2) = 0 :=
  ⟨Grid.cell_index_lt hg x, Grid.cell_index_eq_clamp hg x,
    grid4_cell_index_399, grid4_cell_index_45⟩

theorem cell_index_total_clamped_witness :
    grid4.Valid ∧ grid4.cell_index (399/100) < grid4.n_cells :=
  ⟨by decide, (cell_index_total_clamped grid4 (by decide) (399/100)).1⟩

/-- C4: `interpolate` returns
`w_left * values[cell_index x] + w_right * values[wrap_index (cell_index x + 1)]`
with weights summing to `1`; it is exact at every cell's left edge
(weights `(1, 0)`, returning that cell's stored value), and on a
globally-constant field it returns that constant for every position,
including positions beyond `x_max`. -/
theorem interpolate_exactness (g : Grid) (hg : g.Valid) (fld : VField)
    (hgrid : fld.grid = g) (hlen : fld.data.length = g.n_cells) :
    (∀ x : ℚ, (g.interpolation_weights x).1 + (g.interpolation_weights x).2 = 1)
  ∧ (∀ x : ℚ, fld.interpolate x
      = (g.interpolation_weights x).1 * fld.data.getD (g.cell_index x) 0
      + (g.interpolation_weights x).2
        * fld.data.getD (g.wrap_index ((g.cell_index x : ℤ) + 1)) 0)
  ∧ (∀ i : ℕ, i < g.n_cells →
        g.interpolation_weights (g.cell_left i) = (1, 0)
      ∧ fld.interpolate (g.cell_left i) = fld.data.getD i 0)
  ∧ (∀ c x : ℚ, (VField.make g c).interpolate x = c) := by
  refine ⟨Grid.interpolation_weights_sum g, ?_, ?_,
    fun c x => VField.interpolate_make_const hg c x⟩
  · intro x
    show (fld.grid.interpolation_weights x).1
          * fld.data.getD (fld.grid.cell_index x) 0
        + (fld.grid.interpolation_weights x).2
          * fld.data.getD (fld.grid.wrap_index ((fld.grid.cell_index x : ℤ) + 1)) 0
        = _
    rw [hgrid]
  · intro i hi
    exact ⟨Grid.interpolation_weights_cell_left hg hi,
      VField.interpolate_cell_left hg fld hgrid hi⟩

theorem interpolate_exactness_witness :
    grid4.Valid
  ∧ (VField.make grid4 5).grid = grid4
  ∧ (VField.make grid4 5).data.length = grid4.n_cells
  ∧ (VField.make grid4 5).interpolate 11 = 5 :=
  ⟨by decide, rfl, rfl,
    (interpolate_exactness grid4 (by decide) (VField.make grid4 5) rfl rfl).2.2.2 5 11⟩

/-- C5: `Grid` construction fails with a distinguishable
invalid-argument error exactly when `n_cells = 0` or `x_min ≥ x_max`,
and otherwise succeeds with a grid satisfying the invariant
(`n ≥ 1`, `x_min < x_max`, `dx > 0`); the constructed value is never
mutated, so the invariant holds for its lifetime. -/
theorem grid_make_invalid_or_ok (n : ℕ) (a b : ℚ) (bc : BoundaryCondition) :
    (n = 0 ∨ b ≤ a →
      ∃ msg : String,
        Grid.make n a b bc = Except.error (GridError.invalid_argument msg))
  ∧ ((∃ e, Grid.make n a b bc = Except.error e) → n = 0 ∨ b ≤ a)
  ∧ (n ≠ 0 → a < b →
      Grid.make n a b bc = Except.ok (Grid.mk n a b bc)
      ∧ (Grid.mk n a b bc).Valid ∧ 0 < (Grid.mk n a b bc).dx) := by
  unfold Grid.make
  refine ⟨?_, ?_, ?_⟩
  · intro h
    by_cases h0 : n = 0
    · rw [if_pos h0]
      exact ⟨_, rfl⟩
    · rcases h with h | h
      · exact absurd h h0
      · rw [if_neg h0, if_pos h]
        exact ⟨_, rfl⟩
  · rintro ⟨e, he⟩
    by_cases h0 : n = 0
    · exact Or.inl h0
    · rw [if_neg h0] at he
      by_cases h1 : a ≥ b
      · exact Or.inr h1
      · rw [if_neg h1] at he
        simp at he
  · intro h0 h1
    rw [if_neg h0, if_neg (not_le.mpr h1)]
    refine ⟨rfl, ⟨?_, h1⟩, ?_⟩
    · show 1 ≤ n
      omega
    · show (0 : ℚ) < (b - a) / (n : ℚ)
      have hn : (0 : ℚ) < (n : ℚ) := by
        have h2 : 0 < n := Nat.pos_of_ne_zero h0
        exact_mod_cast h2
      exact div_pos (sub_pos.mpr h1) hn

theorem grid_make_invalid_or_ok_witness :
    (∃ msg : String, Grid.make 0 0 1 BoundaryCondition.Periodic
        = Except.error (GridError.invalid_argument msg))
  ∧ (Grid.make 4 0 4 BoundaryCondition.Periodic
        = Except.ok (Grid.mk 4 0 4 BoundaryCondition.Periodic)
      ∧ (Grid.mk 4 0 4 BoundaryCondition.Periodic).Valid
      ∧ 0 < (Grid.mk 4 0 4 BoundaryCondition.Periodic).dx) :=
  ⟨(grid_make_invalid_or_ok 0 0 1 BoundaryCondition.Periodic).1 (Or.inl rfl),
    (grid_make_invalid_or_ok 4 0 4 BoundaryCondition.Periodic).2.2
      (by decide) (by decide)⟩

/-- C6: for every valid grid, `wrap_index i` lies in `[0, n_cells)` and
is `n_cells`-periodic: `wrap_index (i + k * n_cells) = wrap_index i`
for every integer `k`. -/
theorem wrap_index_range_periodic (g : Grid) (hg : g.Valid) (i : ℤ) :
    g.wrap_index i < g.n_cells
  ∧ ∀ k : ℤ, g.wrap_index (i + k * (g.n_cells : ℤ)) = g.wrap_index i := by
  refine ⟨Grid.wrap_index_lt hg i, fun k => ?_⟩
  have h1 := Grid.wrap_index_eq_emod hg (i + k * (g.n_cells : ℤ))
  have h2 := Grid.wrap_index_eq_emod hg i
  have h3 : (i + k * (g.n_cells : ℤ)) % (g.n_cells : ℤ) = i % (g.n_cells : ℤ) :=
    Int.add_mul_emod_self
  omega

theorem wrap_index_range_periodic_witness :
    grid4.Valid ∧ grid4.wrap_index (-3) < grid4.n_cells :=
  ⟨by decide, (wrap_index_range_periodic grid4 (by decide) (-3)).1⟩

/-- C7 counterexample: `Particles::push_back` is three sequential vector
appends with no rollback; when the second append's allocation fails
after the first succeeded, the escaping state has the position sequence
grown but not the velocity sequence, so the claim that on allocation
failure no sequence is left partially updated is false at this concrete
input. -/
theorem push_back_alloc_not_atomic_cex :
    Particles.mkEmpty.pushBackAlloc 1 2 3 true false true
      = Except.error (Particles.mk [1] [] [] 0)
  ∧ ¬ (Particles.mk [1] [] [] 0 = Particles.mkEmpty)
  ∧ ¬ ((Particles.mk [1] [] [] 0).v.length = (Particles.mk [1] [] [] 0).x.length) := by
  refine ⟨rfl, ?_, ?_⟩ <;> decide

/-- C7 (amended): `push_back` appends one sample to all three sequences
on success (new triple at the tail, prior samples unchanged, size plus
one); if the first append's allocation fails the state is unchanged,
but a failure in the second or third append leaves the earlier
sequences grown, i.e. the set desynchronised. -/
theorem push_back_alloc_behavior (p : Particles) (x_val v_val f_val : ℚ) :
    p.pushBackAlloc x_val v_val f_val true true true
      = Except.ok (p.push_back x_val v_val f_val)
  ∧ (p.push_back x_val v_val f_val).x = p.x ++ [x_val]
  ∧ (p.push_back x_val v_val f_val).v = p.v ++ [v_val]
  ∧ (p.push_back x_val v_val f_val).f = p.f ++ [f_val]
  ∧ (p.push_back x_val v_val f_val).size = p.size + 1
  ∧ (∀ okv okf : Bool, p.pushBackAlloc x_val v_val f_val false okv okf
      = Except.error p)
  ∧ (∀ okf : Bool, p.pushBackAlloc x_val v_val f_val true false okf
      = Except.error (Particles.mk (p.x ++ [x_val]) p.v p.f p.cap))
  ∧ p.pushBackAlloc x_val v_val f_val true true false
      = Except.error (Particles.mk (p.x ++ [x_val]) (p.v ++ [v_val]) p.f p.cap) := by
  refine ⟨rfl, rfl, rfl, rfl, ?_, fun okv okf => rfl, fun okf => rfl, rfl⟩
  show (p.x ++ [x_val]).length = p.x.length + 1
  simp

/-- C8: the three sequences are length-synchronised after every public
operation (all constructors, and `reserve`, `resize`, `resize` with
fill values, `clear`, `push_back` and `pop_back` applied to a
synchronised set), and the common length equals `size`. -/
theorem particles_length_sync :
    Particles.mkEmpty.Wf
  ∧ (∀ n : ℕ, (Particles.mkCapacity n).Wf)
  ∧ (∀ (n : ℕ) (a b c : ℚ), (Particles.mkSized n a b c).Wf)
  ∧ (∀ p : Particles, p.Wf → ∀ n : ℕ,
        (p.reserve n).Wf
      ∧ (p.resize n).Wf
      ∧ (∀ a b c : ℚ, (p.resizeWith n a b c).Wf)
      ∧ p.clear.Wf
      ∧ (∀ a b c : ℚ, (p.push_back a b c).Wf)
      ∧ p.pop_back.Wf)
  ∧ (∀ p : Particles, p.Wf →
        p.x.length = p.size ∧ p.v.length = p.size ∧ p.f.length = p.size) := by
  refine ⟨⟨rfl, rfl⟩, fun n => ⟨rfl, rfl⟩, ?_, ?_, ?_⟩
  · intro n a b c
    simp [Particles.mkSized, Particles.Wf]
  · intro p hp n
    refine ⟨hp, ?_, ?_, ⟨rfl, rfl⟩, ?_, ?_⟩
    · exact ⟨by simp [Particles.resize, resizeList_length],
        by simp [Particles.resize, resizeList_length]⟩
    · intro a b c
      exact ⟨by simp [Particles.resizeWith, resizeList_length],
        by simp [Particles.resizeWith, resizeList_length]⟩
    · intro a b c
      exact ⟨by simp [Particles.push_back, hp.1], by simp [Particles.push_back, hp.2]⟩
    · exact ⟨by simp [Particles.pop_back, List.length_dropLast, hp.1],
        by simp [Particles.pop_back, List.length_dropLast, hp.2]⟩
  · intro p hp
    exact ⟨rfl, hp.1, hp.2⟩

theorem particles_length_sync_witness :
    (Particles.mkSized 2 1 2 3).Wf ∧ ((Particles.mkSized 2 1 2 3).push_back 4 5 6).Wf :=
  ⟨by decide,
    (particles_length_sync.2.2.2.1 (Particles.mkSized 2 1 2 3)
      (by decide) 0).2.2.2.2.1 4 5 6⟩

/-- C9: `advance_positions` replaces every position `x[i]` by
`x[i] + v[i] * dt`, leaves the velocities, weights and size unchanged,
and its result does not depend on the order in which the samples are
processed: every processing order that is a permutation of
`0, ..., size - 1` produces the same position sequence. -/
theorem advance_positions_effect (p : Particles) (dt : ℚ) (hp : p.Wf) :
    (advance_positions p dt).x = List.zipWith (fun a b => a + b * dt) p.x p.v
  ∧ (advance_positions p dt).v = p.v
  ∧ (advance_positions p dt).f = p.f
  ∧ (advance_positions p dt).size = p.size
  ∧ ∀ order : List ℕ, order.Perm (List.range p.size) →
      advanceFold p.v dt p.x order = (advance_positions p dt).x := by
  refine ⟨?_, rfl, rfl, ?_, ?_⟩
  · show advanceFold p.v dt p.x (List.range p.size) = _
    exact advanceFold_range_eq_zipWith p.v p.x dt hp.1
  · show (advanceFold p.v dt p.x (List.range p.size)).length = p.x.length
    rw [advanceFold_length]
  · intro order hperm
    show advanceFold p.v dt p.x order = advanceFold p.v dt p.x (List.range p.size)
    exact advanceFold_perm p.v p.x dt order hperm

theorem advance_positions_effect_witness :
    (Particles.mkSized 1 0 1 1).Wf
  ∧ (advance_positions (Particles.mkSized 1 0 1 1) 1).v
      = (Particles.mkSized 1 0 1 1).v :=
  ⟨by decide, (advance_positions_effect (Particles.mkSized 1 0 1 1) 1 (by decide)).2.1⟩

/-- C10: the single-argument constructor `Particles(capacity)` creates
an empty container whose capacity is at least the argument, while the
four-argument constructor `Particles(size, x0, v0, f0)` creates `size`
samples. -/
theorem particles_capacity_ctor_empty :
    (∀ n : ℕ, (Particles.mkCapacity n).size = 0
      ∧ (Particles.mkCapacity n).empty = true
      ∧ n ≤ (Particles.mkCapacity n).capacity)
  ∧ (∀ (m : ℕ) (a b c : ℚ), (Particles.mkSized m a b c).size = m) := by
  constructor
  · intro n
    refine ⟨rfl, rfl, ?_⟩
    show n ≤ max 0 n
    exact le_max_right 0 n
  · intro m a b c
    show (List.replicate m a).length = m
    exact List.length_replicate m a
